import Mathlib

/-!
Verification of the undo/redo history engine of scintilla-wx.

The repository ships the interface `src/src/UndoHistory.h` (classes
`ScaledVector`, `UndoActions`, `ScrapStack`, `UndoHistory`, together with the
default member initializers of `UndoHistory`), while the implementation file
`UndoHistory.cxx` is not part of the source tree.  Following the specification
document, the behaviour of every method is therefore modelled from the spec's
words; the data-model shape and the initial field values come from the header.

Machine integers are modelled as `Nat` (document positions and lengths are
non-negative) except the fields the header declares as `int` with a `-1`
sentinel (`savePoint`, `tentativePoint`), which are modelled as `Int`.
The byte payloads are modelled as `List Char`.
-/

namespace Scintilla

/-- Action types of the log (spec section 3): insertion, removal, opaque
container edit, and the start-of-group marker. -/
inductive ActionType where
  | insert
  | remove
  | container
  | startAction
deriving DecidableEq, Repr

/-- Minimal power-of-two byte width, drawn from 1, 2, 4, 8, able to represent
the value `v` (spec section 4.1: widening doubles the element size until the
value fits, so the widths are exactly the powers of two up to 8 bytes). -/
def widthFor (v : Nat) : Nat :=
  if v ≤ 255 then 1
  else if v ≤ 65535 then 2
  else if v ≤ 4294967295 then 4
  else 8

/-- ScaledVector (header lines 18-41 and spec section 4.1): a sequence of
unsigned integers stored at `size` bytes per element, where `maxValue` is the
ceiling representable at the current width.  The logical contents are modelled
directly as the list `data`; the physical byte encoding is abstracted, while
`size` and `maxValue` are tracked exactly.  The initial values `size = 1`,
`maxValue = UINT8_MAX` are the `SizeMax` defaults from the header. -/
structure ScaledVector where
  size : Nat
  maxValue : Nat
  data : List Nat
deriving DecidableEq, Repr

/-- Initial scaled vector: 1-byte elements, ceiling `UINT8_MAX`, no data
(header lines 18-23). -/
def ScaledVector.empty : ScaledVector :=
  { size := 1, maxValue := 255, data := [] }

/-- Modelled from the spec: `ScaledVector::Size` (body absent from src), the
logical element count. -/
def ScaledVector.Size (sv : ScaledVector) : Nat := sv.data.length

/-- Modelled from the spec: `ScaledVector::ValueAt` (body absent from src),
reads the element at `index` (0 when out of range). -/
def ScaledVector.ValueAt (sv : ScaledVector) (index : Nat) : Nat :=
  sv.data.getD index 0

/-- Modelled from the spec: `ScaledVector::SetValueAt` (body absent from src).
Spec section 4.1: if the value exceeds `maxValue`, widen the storage to the
minimal byte width holding it (re-encoding, which leaves the logical contents
unchanged) before writing. -/
def ScaledVector.SetValueAt (sv : ScaledVector) (index value : Nat) : ScaledVector :=
  if value ≤ sv.maxValue then
    { sv with data := sv.data.set index value }
  else
    let w := widthFor value
    { size := w, maxValue := 256 ^ w - 1, data := sv.data.set index value }

/-- Modelled from the spec: `ScaledVector::ClearValueAt` (body absent from
src), zeroes a slot without shrinking the width (spec section 4.1). -/
def ScaledVector.ClearValueAt (sv : ScaledVector) (index : Nat) : ScaledVector :=
  { sv with data := sv.data.set index 0 }

/-- Modelled from the spec: `ScaledVector::Clear` (body absent from src),
resets to the empty vector with the minimum 1-byte width (spec section 3). -/
def ScaledVector.Clear (_sv : ScaledVector) : ScaledVector := ScaledVector.empty

/-- Modelled from the spec: `ScaledVector::Truncate` (body absent from src),
drops the elements at or beyond `length`, keeping the width. -/
def ScaledVector.Truncate (sv : ScaledVector) (length : Nat) : ScaledVector :=
  { sv with data := sv.data.take length }

/-- Modelled from the spec: `ScaledVector::ReSize` (body absent from src),
resizes the logical length, zero-filling any growth, keeping the width. -/
def ScaledVector.ReSize (sv : ScaledVector) (length : Nat) : ScaledVector :=
  { sv with data := sv.data.take length ++ List.replicate (length - sv.data.length) 0 }

/-- Modelled from the spec: `ScaledVector::PushBack` (body absent from src),
appends one zero element. -/
def ScaledVector.PushBack (sv : ScaledVector) : ScaledVector :=
  { sv with data := sv.data ++ [0] }

/-- ScrapStack (header lines 67-78 and spec sections 3 and 4.2): an
append-only byte arena `stack` with a movable cursor `current`. -/
structure ScrapStack where
  stack : List Char
  current : Nat
deriving DecidableEq, Repr

/-- Initial scrap stack: empty buffer, cursor 0 (header line 69). -/
def ScrapStack.empty : ScrapStack := { stack := [], current := 0 }

/-- Modelled from the spec: `ScrapStack::Clear` (body absent from src). -/
def ScrapStack.Clear (_sc : ScrapStack) : ScrapStack := ScrapStack.empty

/-- Modelled from the spec: `ScrapStack::Push` (body absent from src),
appends the payload at the end without moving `current` (spec section 3). -/
def ScrapStack.Push (sc : ScrapStack) (text : List Char) : ScrapStack :=
  { sc with stack := sc.stack ++ text }

/-- Modelled from the spec: `ScrapStack::SetCurrent` (body absent from src). -/
def ScrapStack.SetCurrent (sc : ScrapStack) (position : Nat) : ScrapStack :=
  { sc with current := position }

/-- Modelled from the spec: `ScrapStack::MoveForward` (body absent from src). -/
def ScrapStack.MoveForward (sc : ScrapStack) (length : Nat) : ScrapStack :=
  { sc with current := sc.current + length }

/-- Modelled from the spec: `ScrapStack::MoveBack` (body absent from src). -/
def ScrapStack.MoveBack (sc : ScrapStack) (length : Nat) : ScrapStack :=
  { sc with current := sc.current - length }

/-- Per-slot action type together with its may-coalesce flag (header lines
43-48, a 4-bit type and a 1-bit flag; the field `at` is renamed `atype`
because `at` is reserved in Lean). -/
structure UndoActionType where
  atype : ActionType
  mayCoalesce : Bool
deriving DecidableEq, Repr

/-- Default slot value used for out-of-range reads (the C++ reads are
undefined out of range; every theorem below stays inside the valid range, and
the scan helpers treat the out-of-range flag as false). -/
def blankType : UndoActionType := { atype := ActionType.insert, mayCoalesce := false }

/-- UndoActions (header lines 50-65 and spec section 3): the parallel-array
action log, one type plus one position plus one length per slot. -/
structure UndoActions where
  types : List UndoActionType
  positions : ScaledVector
  lengths : ScaledVector
deriving DecidableEq, Repr

/-- Initial, empty log. -/
def UndoActions.empty : UndoActions :=
  { types := [], positions := ScaledVector.empty, lengths := ScaledVector.empty }

/-- Modelled from the spec: `UndoActions::Truncate` (body absent from src),
drops all slots at or beyond `length` (spec section 4.3). -/
def UndoActions.Truncate (a : UndoActions) (length : Nat) : UndoActions :=
  { types := a.types.take length,
    positions := a.positions.Truncate length,
    lengths := a.lengths.Truncate length }

/-- Modelled from the spec: `UndoActions::Clear` (body absent from src). -/
def UndoActions.Clear (_a : UndoActions) : UndoActions := UndoActions.empty

/-- Modelled from the spec: `UndoActions::Create` (body absent from src),
writes the slot at `index`, dropping anything at or beyond it first (spec
section 4.3: used for appending at the end and for reusing a slot freed by
truncation; in the append path `index` is always the post-truncation end). -/
def UndoActions.Create (a : UndoActions) (index : Nat) (at_ : ActionType)
    (position lenData : Nat) (mayCoalesce : Bool) : UndoActions :=
  { types := a.types.take index ++ [{ atype := at_, mayCoalesce := mayCoalesce }],
    positions := ((a.positions.Truncate index).PushBack).SetValueAt index position,
    lengths := ((a.lengths.Truncate index).PushBack).SetValueAt index lenData }

/-- Modelled from the spec: `UndoActions::AtStart` (body absent from src),
true when the slot at `index` is a `startAction` group marker. -/
def UndoActions.AtStart (a : UndoActions) (index : Nat) : Bool :=
  (a.types.getD index blankType).atype = ActionType.startAction

/-- Number of slots in the log. -/
def UndoActions.len (a : UndoActions) : Nat := a.types.length

/-- Length stored for slot `i`. -/
def UndoActions.lenAt (a : UndoActions) (i : Nat) : Nat := a.lengths.data.getD i 0

/-- Position stored for slot `i`. -/
def UndoActions.posAt (a : UndoActions) (i : Nat) : Nat := a.positions.data.getD i 0

/-- Cumulative payload length of the slots before `n`; this is the scrap-stack
offset of slot `n`'s payload (spec section 3: every appended payload goes to
the end of the scrap stack in log order). -/
def UndoActions.lenSumTo (a : UndoActions) (n : Nat) : Nat :=
  ((a.lengths.data.take n).map id).sum

/-- Action value returned to the caller (spec section 3). -/
structure Action where
  atype : ActionType
  position : Nat
  length : Nat
  text : List Char
deriving DecidableEq, Repr

/-- UndoHistory state (header lines 85-94; the field values of the initial
state are the header's default member initializers).  The `memory` cache of
the header is a pure query optimisation and is not part of the logical
state. -/
structure UndoHistory where
  actions : UndoActions
  currentAction : Nat
  undoSequenceDepth : Nat
  savePoint : Int
  tentativePoint : Int
  detach : Option Int
  scraps : ScrapStack
deriving DecidableEq, Repr

/-- Initial state, from the header's default member initializers
(header lines 87-94): `currentAction = 0`, `undoSequenceDepth = 0`,
`savePoint = 0`, `tentativePoint = -1`, `detach` unset, empty log and
scrap stack. -/
def UndoHistory.initial : UndoHistory :=
  { actions := UndoActions.empty,
    currentAction := 0,
    undoSequenceDepth := 0,
    savePoint := 0,
    tentativePoint := -1,
    detach := none,
    scraps := ScrapStack.empty }

/-- Modelled from the spec: `UndoHistory::CanUndo` (body absent from src),
true iff `currentAction > 0` (spec section 4.4). -/
def UndoHistory.CanUndo (s : UndoHistory) : Bool :=
  decide (0 < s.currentAction)

/-- Modelled from the spec: `UndoHistory::CanRedo` (body absent from src),
true iff redoable actions remain beyond the frontier (spec section 4.4:
`currentAction == N` means nothing to redo). -/
def UndoHistory.CanRedo (s : UndoHistory) : Bool :=
  decide (s.currentAction < s.actions.len)

/-- Modelled from the spec: `UndoHistory::IsSavePoint` (body absent from
src), `currentAction == savePoint` (spec section 4.4). -/
def UndoHistory.IsSavePoint (s : UndoHistory) : Bool :=
  decide ((s.currentAction : Int) = s.savePoint)

/-- Modelled from the spec: `UndoHistory::BeforeSavePoint` (body absent from
src), `currentAction < savePoint`, false when no reachable save point is set
(spec section 4.4). -/
def UndoHistory.BeforeSavePoint (s : UndoHistory) : Bool :=
  decide (0 ≤ s.savePoint ∧ (s.currentAction : Int) < s.savePoint)

/-- Modelled from the spec: `UndoHistory::AfterDetachPoint` (body absent from
src), true when a detach point is recorded and the frontier is strictly past
it (header line 123: the detach point is the last action before the missing
save point). -/
def UndoHistory.AfterDetachPoint (s : UndoHistory) : Bool :=
  match s.detach with
  | none => false
  | some d => decide (d < (s.currentAction : Int))

/-- Modelled from the spec: `UndoHistory::AfterOrAtDetachPoint` (body absent
from src), the non-strict companion of `AfterDetachPoint`. -/
def UndoHistory.AfterOrAtDetachPoint (s : UndoHistory) : Bool :=
  match s.detach with
  | none => false
  | some d => decide (d ≤ (s.currentAction : Int))

/-- Modelled from the spec: `UndoHistory::TentativeActive` (body absent from
src), a composition is open while `tentativePoint` is not the `-1` sentinel
(header line 90). -/
def UndoHistory.TentativeActive (s : UndoHistory) : Bool :=
  decide (0 ≤ s.tentativePoint)

/-- Modelled from the spec: `UndoHistory::SetSavePoint` with an explicit
action (body absent from src), sets `savePoint` and clears `detach` (spec
section 4.4). -/
def UndoHistory.SetSavePointAt (s : UndoHistory) (action : Int) : UndoHistory :=
  { s with savePoint := action, detach := none }

/-- Modelled from the spec: the argumentless `UndoHistory::SetSavePoint`
(body absent from src), marks the current frontier as saved and clears
`detach`. -/
def UndoHistory.SetSavePoint (s : UndoHistory) : UndoHistory :=
  { s with savePoint := (s.currentAction : Int), detach := none }

/-- Modelled from the spec: `UndoHistory::TentativeStart` (body absent from
src), records `tentativePoint = currentAction` (spec section 4.4). -/
def UndoHistory.TentativeStart (s : UndoHistory) : UndoHistory :=
  { s with tentativePoint := (s.currentAction : Int) }

/-- Modelled from the spec: `UndoHistory::TentativeCommit` (body absent from
src), clears `tentativePoint` without altering anything else (spec section
4.4). -/
def UndoHistory.TentativeCommit (s : UndoHistory) : UndoHistory :=
  { s with tentativePoint := -1 }

/-- Modelled from the spec: `UndoHistory::DropUndoSequence` (body absent from
src), abandons any open grouping. -/
def UndoHistory.DropUndoSequence (s : UndoHistory) : UndoHistory :=
  { s with undoSequenceDepth := 0 }

/-- Modelled from the spec: `UndoHistory::DeleteUndoHistory` (body absent
from src), resets the object to the empty state (spec section 3, used when
loading a new file). -/
def UndoHistory.DeleteUndoHistory (_s : UndoHistory) : UndoHistory :=
  UndoHistory.initial

/-- Coalescing compatibility of a new action with the previous slot (spec
section 4.4 step 2): the same type with contiguous extents — an Insert
extends an Insert exactly when `prevPos + prevLen == position`; a Remove
extends a Remove when the deletions are adjacent (repeated forward delete at
the same position, or backspace ending where the previous deletion began).
Container and start-marker slots never coalesce. -/
def coalesceMatch (at_ : ActionType) (position lenData prevPos prevLen : Nat) : Bool :=
  match at_ with
  | ActionType.insert => decide (prevPos + prevLen = position)
  | ActionType.remove => decide (position = prevPos ∨ position + lenData = prevPos)
  | _ => false

/-- Position of the coalesced slot (the Insert keeps its start; a backspace
Remove moves the start down to the new position). -/
def coalescedPos (at_ : ActionType) (position prevPos : Nat) : Nat :=
  match at_ with
  | ActionType.remove => if position < prevPos then position else prevPos
  | _ => prevPos

/-- Modelled from the spec: the redo-discarding first step of
`UndoHistory::AppendAction` (body absent from src).  Spec section 4.4 step 1:
when `currentAction` is not at the end of the log the slots beyond it are
discarded (`UndoActions::Truncate`), the scrap stack is truncated to match,
and a save or tentative point falling in the discarded region is unset, the
old save point being recorded in `detach`. -/
def UndoHistory.truncateRedo (s : UndoHistory) : UndoHistory :=
  if s.currentAction < s.actions.len then
    let keep := s.actions.lenSumTo s.currentAction
    { s with
      actions := s.actions.Truncate s.currentAction,
      scraps := { stack := s.scraps.stack.take keep, current := keep },
      savePoint := if (s.currentAction : Int) < s.savePoint then -1 else s.savePoint,
      detach := if (s.currentAction : Int) < s.savePoint then some s.savePoint else s.detach,
      tentativePoint :=
        if (s.currentAction : Int) < s.tentativePoint then -1 else s.tentativePoint }
  else s

/-- Modelled from the spec: `UndoHistory::AppendAction` (body absent from
src), spec section 4.4.  After discarding any redo region, the new action
merges into the immediately preceding slot iff the caller allows coalescing,
the previous slot's flag allows it, the extents are contiguous for the same
type, and no save or tentative boundary sits at the frontier; otherwise a new
slot is created at the frontier and the frontier advances.  Inside an open
group the stored may-coalesce flag is forced true (spec section 3:
coalescing boundaries are suppressed while `undoSequenceDepth > 0`).
Returns the new state and the `startSequence` flag (true iff a fresh
slot was started). -/
def UndoHistory.AppendAction (s : UndoHistory) (at_ : ActionType) (position : Nat)
    (data : List Char) (lengthData : Nat) (mayCoalesce : Bool) : UndoHistory × Bool :=
  let s1 := s.truncateRedo
  let c := s1.currentAction
  let prev := s1.actions.types.getD (c - 1) blankType
  let prevPos := s1.actions.posAt (c - 1)
  let prevLen := s1.actions.lenAt (c - 1)
  let coalesce : Bool :=
    0 < c && mayCoalesce && prev.mayCoalesce &&
    (prev.atype = at_ : Bool) &&
    coalesceMatch at_ position lengthData prevPos prevLen &&
    !(s1.savePoint = (c : Int) : Bool) && !(s1.tentativePoint = (c : Int) : Bool)
  if coalesce then
    let acts :=
      { types := s1.actions.types,
        positions := s1.actions.positions.SetValueAt (c - 1)
          (coalescedPos at_ position prevPos),
        lengths := s1.actions.lengths.SetValueAt (c - 1) (prevLen + lengthData) }
    ({ s1 with
        actions := acts,
        scraps := (s1.scraps.Push (data.take lengthData)).MoveForward lengthData },
     false)
  else
    let storedFlag := mayCoalesce || decide (0 < s1.undoSequenceDepth)
    ({ s1 with
        actions := s1.actions.Create c at_ position lengthData storedFlag,
        currentAction := c + 1,
        scraps := (s1.scraps.Push (data.take lengthData)).MoveForward lengthData },
     true)

/-- Modelled from the spec: `UndoHistory::BeginUndoAction` (body absent from
src), spec section 4.4: increments `undoSequenceDepth` and, on the 0 to 1
transition, inserts a `startAction` marker slot carrying the given
may-coalesce flag at the frontier (discarding any redo region first, as every
slot creation does). -/
def UndoHistory.BeginUndoAction (s : UndoHistory) (mayCoalesce : Bool) : UndoHistory :=
  if s.undoSequenceDepth = 0 then
    let s1 := s.truncateRedo
    { s1 with
      actions := s1.actions.Create s1.currentAction ActionType.startAction 0 0 mayCoalesce,
      currentAction := s1.currentAction + 1,
      undoSequenceDepth := 1 }
  else
    { s with undoSequenceDepth := s.undoSequenceDepth + 1 }

/-- Modelled from the spec: `UndoHistory::EndUndoAction` (body absent from
src), decrements `undoSequenceDepth` (unbalanced calls are a caller error,
spec section 5). -/
def UndoHistory.EndUndoAction (s : UndoHistory) : UndoHistory :=
  { s with undoSequenceDepth := s.undoSequenceDepth - 1 }

/-- Action record for slot `i`, with its payload read from the scrap stack at
the cumulative offset of the preceding slots. -/
def UndoHistory.actionAt (s : UndoHistory) (i : Nat) : Action :=
  { atype := (s.actions.types.getD i blankType).atype,
    position := s.actions.posAt i,
    length := s.actions.lenAt i,
    text := (s.scraps.stack.drop (s.actions.lenSumTo i)).take (s.actions.lenAt i) }

/-- Modelled from the spec: `UndoHistory::GetUndoStep` (body absent from
src), the action just before the frontier. -/
def UndoHistory.GetUndoStep (s : UndoHistory) : Action :=
  s.actionAt (s.currentAction - 1)

/-- Modelled from the spec: `UndoHistory::CompletedUndoStep` (body absent
from src), moves the frontier back one action and retreats the scrap cursor
over its payload. -/
def UndoHistory.CompletedUndoStep (s : UndoHistory) : UndoHistory :=
  { s with
    currentAction := s.currentAction - 1,
    scraps := s.scraps.MoveBack (s.actions.lenAt (s.currentAction - 1)) }

/-- Modelled from the spec: `UndoHistory::GetRedoStep` (body absent from
src), the action at the frontier. -/
def UndoHistory.GetRedoStep (s : UndoHistory) : Action :=
  s.actionAt s.currentAction

/-- Modelled from the spec: `UndoHistory::CompletedRedoStep` (body absent
from src), moves the frontier forward one action and advances the scrap
cursor over its payload. -/
def UndoHistory.CompletedRedoStep (s : UndoHistory) : UndoHistory :=
  { s with
    currentAction := s.currentAction + 1,
    scraps := s.scraps.MoveForward (s.actions.lenAt s.currentAction) }

/-- May-coalesce flag of the slot at `i`, false out of range. -/
def flagAt (types : List UndoActionType) (i : Nat) : Bool :=
  (types.getD i blankType).mayCoalesce

/-- Undo-step backward scan (spec section 4.4): starting from the included
slot at index `i`, the step extends to the predecessor while the included
slot's may-coalesce flag chains it backward. -/
def backCount (types : List UndoActionType) : Nat → Nat
  | 0 => 1
  | Nat.succ j =>
      if flagAt types (Nat.succ j) then 1 + backCount types j
      else 1

/-- Modelled from the spec: `UndoHistory::StartUndo` (body absent from src),
the number of actions forming one logical undo step: 0 at the bottom,
otherwise the backward chain length from the slot before the frontier. -/
def UndoHistory.StartUndo (s : UndoHistory) : Nat :=
  match s.currentAction with
  | 0 => 0
  | Nat.succ j => backCount s.actions.types j

/-- Modelled from the spec: `UndoHistory::StartRedo` (body absent from src),
the symmetric forward scan: the slot at the frontier plus every following
slot whose may-coalesce flag chains it to its predecessor. -/
def UndoHistory.StartRedo (s : UndoHistory) : Nat :=
  if s.currentAction < s.actions.len then
    1 + ((s.actions.types.drop (s.currentAction + 1)).takeWhile
          (fun a => a.mayCoalesce)).length
  else 0

/-- Public mutating operations of a ScaledVector (header lines 29-41); used
to state its width invariant over arbitrary operation sequences. -/
inductive SVOp where
  | setValueAt (index value : Nat)
  | clearValueAt (index : Nat)
  | clear
  | truncate (length : Nat)
  | reSize (length : Nat)
  | pushBack
deriving DecidableEq, Repr

/-- Effect of one ScaledVector operation. -/
def applySVOp (sv : ScaledVector) : SVOp → ScaledVector
  | SVOp.setValueAt i v => sv.SetValueAt i v
  | SVOp.clearValueAt i => sv.ClearValueAt i
  | SVOp.clear => sv.Clear
  | SVOp.truncate n => sv.Truncate n
  | SVOp.reSize n => sv.ReSize n
  | SVOp.pushBack => sv.PushBack

/-- Left-to-right application of ScaledVector operations. -/
def applySVOps : List SVOp → ScaledVector → ScaledVector
  | [], sv => sv
  | op :: rest, sv => applySVOps rest (applySVOp sv op)

/-- Domain constraint of the C++ interface: stored values are `size_t`, so
below `2 ^ 64`. -/
def ValidSVOp : SVOp → Prop
  | SVOp.setValueAt _ v => v < 2 ^ 64
  | _ => True

/-- Width invariant of a ScaledVector (spec section 3): the element width is
one of 1, 2, 4, 8 bytes, `maxValue` is exactly the ceiling representable at
that width, and every stored value fits. -/
def SVInv (sv : ScaledVector) : Prop :=
  (sv.size = 1 ∨ sv.size = 2 ∨ sv.size = 4 ∨ sv.size = 8) ∧
  sv.maxValue = 256 ^ sv.size - 1 ∧
  ∀ v ∈ sv.data, v ≤ sv.maxValue

theorem widthFor_cases (v : Nat) :
    widthFor v = 1 ∨ widthFor v = 2 ∨ widthFor v = 4 ∨ widthFor v = 8 := by
  unfold widthFor
  split_ifs <;> simp

theorem le_pow_widthFor (v : Nat) (hv : v < 2 ^ 64) : v ≤ 256 ^ widthFor v - 1 := by
  unfold widthFor
  split_ifs <;> norm_num <;> omega

theorem widthFor_le (v w : Nat) (hw : w = 1 ∨ w = 2 ∨ w = 4 ∨ w = 8)
    (hvw : v ≤ 256 ^ w - 1) : widthFor v ≤ w := by
  rcases hw with rfl | rfl | rfl | rfl <;>
    norm_num at hvw <;> unfold widthFor <;> split_ifs <;> omega

theorem widthFor_pow_sub_one (w : Nat) (hw : w = 1 ∨ w = 2 ∨ w = 4 ∨ w = 8) :
    widthFor (256 ^ w - 1) = w := by
  rcases hw with rfl | rfl | rfl | rfl <;> decide

theorem setValueAt_size (sv : ScaledVector) (i v : Nat) (h : SVInv sv)
    (hv : v < 2 ^ 64) :
    (sv.SetValueAt i v).size = max sv.size (widthFor v) := by
  obtain ⟨hsz, hmax, -⟩ := h
  unfold ScaledVector.SetValueAt
  split
  · rename_i hle
    have : widthFor v ≤ sv.size := widthFor_le v sv.size hsz (hmax ▸ hle)
    simp [Nat.max_eq_left this]
  · rename_i hgt
    have hlt : ¬v ≤ sv.maxValue := hgt
    have hge : sv.size ≤ widthFor v := by
      by_contra hcon
      push_neg at hcon
      have h1 : v ≤ 256 ^ widthFor v - 1 := le_pow_widthFor v hv
      have h2 : (256 : Nat) ^ widthFor v ≤ 256 ^ sv.size :=
        Nat.pow_le_pow_right (by norm_num) (Nat.le_of_lt hcon)
      exact hlt (by omega)
    simp [Nat.max_eq_right hge]

theorem svInv_step (sv : ScaledVector) (op : SVOp) (h : SVInv sv)
    (hop : ValidSVOp op) : SVInv (applySVOp sv op) := by
  obtain ⟨hsz, hmax, hvals⟩ := h
  cases op with
  | setValueAt i v =>
      simp only [ValidSVOp] at hop
      simp only [applySVOp]
      unfold ScaledVector.SetValueAt
      split
      · rename_i hle
        refine ⟨hsz, hmax, ?_⟩
        intro x hx
        rcases List.mem_or_eq_of_mem_set hx with hmem | rfl
        · exact hvals x hmem
        · exact hle
      · rename_i hgt
        refine ⟨widthFor_cases v, rfl, ?_⟩
        intro x hx
        have hmono : sv.maxValue ≤ 256 ^ widthFor v - 1 := by
          have hge : sv.size ≤ widthFor v := by
            by_contra hcon
            push_neg at hcon
            have h1 : v ≤ 256 ^ widthFor v - 1 := le_pow_widthFor v hop
            have h2 : (256 : Nat) ^ widthFor v ≤ 256 ^ sv.size :=
              Nat.pow_le_pow_right (by norm_num) (Nat.le_of_lt hcon)
            exact hgt (by omega)
          have := Nat.pow_le_pow_right (show 1 ≤ 256 by norm_num) hge
          omega
        rcases List.mem_or_eq_of_mem_set hx with hmem | rfl
        · exact le_trans (hvals x hmem) hmono
        · exact le_pow_widthFor x hop
  | clearValueAt i =>
      refine ⟨hsz, hmax, ?_⟩
      intro x hx
      rcases List.mem_or_eq_of_mem_set hx with hmem | rfl
      · exact hvals x hmem
      · exact Nat.zero_le _
  | clear =>
      exact ⟨Or.inl rfl, rfl, by
        intro x hx
        simp [applySVOp, ScaledVector.Clear, ScaledVector.empty] at hx⟩
  | truncate n =>
      exact ⟨hsz, hmax, fun x hx => hvals x (List.take_subset n sv.data hx)⟩
  | reSize n =>
      refine ⟨hsz, hmax, ?_⟩
      intro x hx
      rcases List.mem_append.mp hx with hmem | hmem
      · exact hvals x (List.take_subset n sv.data hmem)
      · rw [List.eq_of_mem_replicate hmem]
        exact Nat.zero_le _
  | pushBack =>
      refine ⟨hsz, hmax, ?_⟩
      intro x hx
      rcases List.mem_append.mp hx with hmem | hmem
      · exact hvals x hmem
      · simp at hmem
        omega

theorem svSize_mono (sv : ScaledVector) (op : SVOp) (h : SVInv sv)
    (hop : ValidSVOp op) (hne : op ≠ SVOp.clear) :
    sv.size ≤ (applySVOp sv op).size := by
  cases op with
  | setValueAt i v =>
      rw [applySVOp, setValueAt_size sv i v h hop]
      exact Nat.le_max_left _ _
  | clearValueAt i => exact Nat.le_refl _
  | clear => exact absurd rfl hne
  | truncate n => exact Nat.le_refl _
  | reSize n => exact Nat.le_refl _
  | pushBack => exact Nat.le_refl _

theorem svInv_ops (ops : List SVOp) :
    ∀ sv : ScaledVector, SVInv sv → (∀ op ∈ ops, ValidSVOp op) →
      SVInv (applySVOps ops sv) := by
  induction ops with
  | nil => intro sv h _; exact h
  | cons op rest ih =>
      intro sv h hops
      exact ih (applySVOp sv op) (svInv_step sv op h (hops op (by simp)))
        (fun o ho => hops o (by simp [ho]))

/-- Public mutating operations of the core protocol (spec section 4.4); used
to define reachable states.  An append carries the payload list, its length
being the payload's length as passed by the document layer. -/
inductive EditOp where
  | append (at_ : ActionType) (position : Nat) (data : List Char) (mayCoalesce : Bool)
  | beginUndo (mayCoalesce : Bool)
  | endUndo
  | dropUndoSequence
  | tentativeStart
  | tentativeCommit
  | undoStep
  | redoStep
  | setSavePoint
  | setSavePointAt (action : Int)
  | deleteHistory
deriving DecidableEq, Repr

/-- Effect of one protocol operation on the history state. -/
def applyOp (s : UndoHistory) : EditOp → UndoHistory
  | EditOp.append at_ position data mayCoalesce =>
      (s.AppendAction at_ position data data.length mayCoalesce).1
  | EditOp.beginUndo mayCoalesce => s.BeginUndoAction mayCoalesce
  | EditOp.endUndo => s.EndUndoAction
  | EditOp.dropUndoSequence => s.DropUndoSequence
  | EditOp.tentativeStart => s.TentativeStart
  | EditOp.tentativeCommit => s.TentativeCommit
  | EditOp.undoStep => s.CompletedUndoStep
  | EditOp.redoStep => s.CompletedRedoStep
  | EditOp.setSavePoint => s.SetSavePoint
  | EditOp.setSavePointAt action => s.SetSavePointAt action
  | EditOp.deleteHistory => s.DeleteUndoHistory

/-- Left-to-right application of a list of protocol operations. -/
def applyOps : List EditOp → UndoHistory → UndoHistory
  | [], s => s
  | op :: rest, s => applyOps rest (applyOp s op)

/-- Reachability: states produced from the freshly constructed history by
some sequence of core-protocol operations. -/
def Reachable (s : UndoHistory) : Prop :=
  ∃ ops : List EditOp, applyOps ops UndoHistory.initial = s

/-- Operations that are not a save-point call: used to express properties
holding until the next `SetSavePoint` (the claim's own stopping condition;
`deleteHistory` is likewise excluded since it reinitialises the object). -/
def NonSaveOp : EditOp → Prop
  | EditOp.setSavePoint => False
  | EditOp.setSavePointAt _ => False
  | EditOp.deleteHistory => False
  | _ => True

/-- Documents are byte lists; the engine's caller replays actions against
one (spec section 2). -/
abbrev Doc := List Char

/-- Undo replay of one action against the document (spec section 4.4):
undoing an Insert deletes its extent, undoing a Remove re-inserts the stored
payload; container edits and group markers are opaque to the byte content. -/
def applyUndoAction (d : Doc) (a : Action) : Doc :=
  match a.atype with
  | ActionType.insert => List.take a.position d ++ List.drop (a.position + a.length) d
  | ActionType.remove => List.take a.position d ++ a.text ++ List.drop a.position d
  | _ => d

/-- Redo replay of one action: the mirror image of `applyUndoAction`. -/
def applyRedoAction (d : Doc) (a : Action) : Doc :=
  match a.atype with
  | ActionType.insert => List.take a.position d ++ a.text ++ List.drop a.position d
  | ActionType.remove => List.take a.position d ++ List.drop (a.position + a.length) d
  | _ => d

/-- Runs `k` undo steps of the protocol: each step replays `GetUndoStep`
against the document and calls `CompletedUndoStep`. -/
def undoN : Nat → UndoHistory → Doc → UndoHistory × Doc
  | 0, s, d => (s, d)
  | Nat.succ k, s, d =>
      undoN k s.CompletedUndoStep (applyUndoAction d s.GetUndoStep)

/-- Document states passed through while undoing `k` steps, starting one. -/
def undoDocs : Nat → UndoHistory → Doc → List Doc
  | 0, _, d => [d]
  | Nat.succ k, s, d =>
      d :: undoDocs k s.CompletedUndoStep (applyUndoAction d s.GetUndoStep)

/-- Runs `k` redo steps of the protocol. -/
def redoN : Nat → UndoHistory → Doc → UndoHistory × Doc
  | 0, s, d => (s, d)
  | Nat.succ k, s, d =>
      redoN k s.CompletedRedoStep (applyRedoAction d s.GetRedoStep)

/-- Document states passed through while redoing `k` steps. -/
def redoDocs : Nat → UndoHistory → Doc → List Doc
  | 0, _, d => [d]
  | Nat.succ k, s, d =>
      d :: redoDocs k s.CompletedRedoStep (applyRedoAction d s.GetRedoStep)

/-- Validity of replaying one recorded action backward against a document:
an Insert's recorded extent must actually hold its recorded payload, a
Remove's payload must have its recorded length and its position must be in
range; opaque actions carry no byte constraint. -/
def ValidUndo (d : Doc) (a : Action) : Prop :=
  match a.atype with
  | ActionType.insert =>
      a.position + a.length ≤ d.length ∧
      (List.drop a.position d).take a.length = a.text
  | ActionType.remove => a.position ≤ d.length ∧ a.text.length = a.length
  | _ => True

/-- Stepwise validity of `k` undo steps from a state and document: at each
step the frontier is positive and inside the log, the scrap cursor covers the
payload being stepped over, and the replay is `ValidUndo`. -/
def UndoValid : UndoHistory → Doc → Nat → Prop
  | _, _, 0 => True
  | s, d, Nat.succ k =>
      0 < s.currentAction ∧ s.currentAction ≤ s.actions.len ∧
      s.actions.lenAt (s.currentAction - 1) ≤ s.scraps.current ∧
      ValidUndo d s.GetUndoStep ∧
      UndoValid s.CompletedUndoStep (applyUndoAction d s.GetUndoStep) k

/-! Helper lemmas about the shapes of the operations. -/

theorem undo_then_redo_state (s : UndoHistory) (h1 : 0 < s.currentAction)
    (h2 : s.actions.lenAt (s.currentAction - 1) ≤ s.scraps.current) :
    s.CompletedUndoStep.CompletedRedoStep = s := by
  unfold UndoHistory.CompletedUndoStep UndoHistory.CompletedRedoStep
  unfold ScrapStack.MoveBack ScrapStack.MoveForward
  have e1 : s.currentAction - 1 + 1 = s.currentAction := by omega
  have e2 : s.scraps.current - s.actions.lenAt (s.currentAction - 1) +
      s.actions.lenAt (s.currentAction - 1) = s.scraps.current := by omega
  simp only [e1, e2]

theorem undo_then_getRedo (s : UndoHistory) :
    s.CompletedUndoStep.GetRedoStep = s.GetUndoStep := rfl

theorem take_of_append_eq {α : Type} (l1 l2 : List α) (n : Nat)
    (h : l1.length = n) : (l1 ++ l2).take n = l1 := by
  rw [← h]
  exact List.take_left l1 l2

theorem drop_of_append_eq {α : Type} (l1 l2 : List α) (n : Nat)
    (h : l1.length = n) : (l1 ++ l2).drop n = l2 := by
  rw [← h]
  exact List.drop_left l1 l2

theorem undo_redo_doc (d : Doc) (a : Action) (h : ValidUndo d a) :
    applyRedoAction (applyUndoAction d a) a = d := by
  unfold ValidUndo at h
  unfold applyUndoAction applyRedoAction
  cases hat : a.atype with
  | insert =>
      rw [hat] at h
      obtain ⟨hle, htext⟩ := h
      have hlen : (List.take a.position d).length = a.position := by
        rw [List.length_take]
        omega
      rw [take_of_append_eq _ _ _ hlen, drop_of_append_eq _ _ _ hlen, ← htext,
        List.append_assoc, List.drop_take_append_drop, List.take_append_drop]
  | remove =>
      rw [hat] at h
      obtain ⟨hle, htext⟩ := h
      have hlen : (List.take a.position d).length = a.position := by
        rw [List.length_take]
        omega
      have hlen2 : (List.take a.position d ++ a.text).length =
          a.position + a.length := by
        rw [List.length_append, hlen, htext]
      have h1 : List.take a.position
          (List.take a.position d ++ a.text ++ List.drop a.position d) =
          List.take a.position d := by
        rw [List.append_assoc]
        exact take_of_append_eq _ _ _ hlen
      have h2 : List.drop (a.position + a.length)
          (List.take a.position d ++ a.text ++ List.drop a.position d) =
          List.drop a.position d :=
        drop_of_append_eq _ _ _ hlen2
      rw [h1, h2, List.take_append_drop]
  | container => rfl
  | startAction => rfl

theorem truncateRedo_currentAction (s : UndoHistory) :
    s.truncateRedo.currentAction = s.currentAction := by
  unfold UndoHistory.truncateRedo
  split <;> rfl

theorem truncateRedo_len (s : UndoHistory) :
    s.truncateRedo.actions.len = min s.currentAction s.actions.len := by
  unfold UndoHistory.truncateRedo
  split
  · simp [UndoActions.Truncate, UndoActions.len]
  · rename_i h
    simp only [UndoActions.len, not_lt] at h ⊢
    omega

theorem appendAction_shape (s : UndoHistory) (at_ : ActionType) (position : Nat)
    (data : List Char) (lengthData : Nat) (mayCoalesce : Bool) :
    ((s.AppendAction at_ position data lengthData mayCoalesce).1.actions.len =
        s.truncateRedo.actions.len ∧
      (s.AppendAction at_ position data lengthData mayCoalesce).1.currentAction =
        s.truncateRedo.currentAction) ∨
    ((s.AppendAction at_ position data lengthData mayCoalesce).1.actions.len =
        min s.truncateRedo.currentAction s.truncateRedo.actions.len + 1 ∧
      (s.AppendAction at_ position data lengthData mayCoalesce).1.currentAction =
        s.truncateRedo.currentAction + 1) := by
  unfold UndoHistory.AppendAction
  dsimp only
  split
  · exact Or.inl ⟨rfl, rfl⟩
  · refine Or.inr ⟨?_, rfl⟩
    simp [UndoActions.Create, UndoActions.len]

theorem truncateRedo_savePoint (s : UndoHistory) :
    s.truncateRedo.savePoint =
      if s.currentAction < s.actions.len ∧ (s.currentAction : Int) < s.savePoint then -1
      else s.savePoint := by
  unfold UndoHistory.truncateRedo
  split <;> rename_i h <;> simp [h]

theorem truncateRedo_detach (s : UndoHistory) :
    s.truncateRedo.detach =
      if s.currentAction < s.actions.len ∧ (s.currentAction : Int) < s.savePoint then
        some s.savePoint
      else s.detach := by
  unfold UndoHistory.truncateRedo
  split <;> rename_i h <;> simp [h]

theorem truncateRedo_tentativePoint (s : UndoHistory) :
    s.truncateRedo.tentativePoint =
      if s.currentAction < s.actions.len ∧ (s.currentAction : Int) < s.tentativePoint then -1
      else s.tentativePoint := by
  unfold UndoHistory.truncateRedo
  split <;> rename_i h <;> simp [h]

theorem truncateRedo_depth (s : UndoHistory) :
    s.truncateRedo.undoSequenceDepth = s.undoSequenceDepth := by
  unfold UndoHistory.truncateRedo
  split <;> rfl

theorem appendAction_savePoint (s : UndoHistory) (at_ : ActionType) (position : Nat)
    (data : List Char) (lengthData : Nat) (mayCoalesce : Bool) :
    (s.AppendAction at_ position data lengthData mayCoalesce).1.savePoint =
      s.truncateRedo.savePoint := by
  unfold UndoHistory.AppendAction
  dsimp only
  split <;> rfl

theorem appendAction_detach (s : UndoHistory) (at_ : ActionType) (position : Nat)
    (data : List Char) (lengthData : Nat) (mayCoalesce : Bool) :
    (s.AppendAction at_ position data lengthData mayCoalesce).1.detach =
      s.truncateRedo.detach := by
  unfold UndoHistory.AppendAction
  dsimp only
  split <;> rfl

theorem appendAction_tentativePoint (s : UndoHistory) (at_ : ActionType) (position : Nat)
    (data : List Char) (lengthData : Nat) (mayCoalesce : Bool) :
    (s.AppendAction at_ position data lengthData mayCoalesce).1.tentativePoint =
      s.truncateRedo.tentativePoint := by
  unfold UndoHistory.AppendAction
  dsimp only
  split <;> rfl

theorem beginUndo_savePoint (s : UndoHistory) (mayCoalesce : Bool) :
    (s.BeginUndoAction mayCoalesce).savePoint = s.truncateRedo.savePoint ∨
    (s.BeginUndoAction mayCoalesce).savePoint = s.savePoint := by
  unfold UndoHistory.BeginUndoAction
  split
  · exact Or.inl rfl
  · exact Or.inr rfl

theorem beginUndo_fields (s : UndoHistory) (mayCoalesce : Bool) :
    ((s.BeginUndoAction mayCoalesce).savePoint = s.truncateRedo.savePoint ∧
      (s.BeginUndoAction mayCoalesce).detach = s.truncateRedo.detach) ∨
    ((s.BeginUndoAction mayCoalesce).savePoint = s.savePoint ∧
      (s.BeginUndoAction mayCoalesce).detach = s.detach) := by
  unfold UndoHistory.BeginUndoAction
  split
  · exact Or.inl ⟨rfl, rfl⟩
  · exact Or.inr ⟨rfl, rfl⟩

/-- Mutual exclusion of `detach` and a valid save point (header line 91:
the comment on `detach` states it is never set while `savePoint` is set,
meaning at least 0). -/
def DetachExcl (s : UndoHistory) : Prop :=
  s.detach.isSome = true → s.savePoint < 0

theorem detachExcl_step (s : UndoHistory) (op : EditOp) (h : DetachExcl s) :
    DetachExcl (applyOp s op) := by
  have htr : DetachExcl s.truncateRedo := by
    intro hd
    rw [truncateRedo_detach] at hd
    rw [truncateRedo_savePoint]
    split at hd
    · rename_i hc
      simp [hc]
    · rename_i hc
      simp only [hc, if_false]
      exact h hd
  cases op with
  | append at_ position data mayCoalesce =>
      intro hd
      rw [applyOp, appendAction_detach] at hd
      rw [applyOp, appendAction_savePoint]
      exact htr hd
  | beginUndo mayCoalesce =>
      intro hd
      rcases beginUndo_fields s mayCoalesce with ⟨hsp, hdet⟩ | ⟨hsp, hdet⟩
      · rw [applyOp, hdet] at hd
        rw [applyOp, hsp]
        exact htr hd
      · rw [applyOp, hdet] at hd
        rw [applyOp, hsp]
        exact h hd
  | endUndo => exact h
  | dropUndoSequence => exact h
  | tentativeStart => exact h
  | tentativeCommit => exact h
  | undoStep => exact h
  | redoStep => exact h
  | setSavePoint => intro hd; simp [applyOp, UndoHistory.SetSavePoint] at hd
  | setSavePointAt action =>
      intro hd; simp [applyOp, UndoHistory.SetSavePointAt] at hd
  | deleteHistory =>
      intro hd
      simp [applyOp, UndoHistory.DeleteUndoHistory, UndoHistory.initial] at hd

theorem detachExcl_ops (ops : List EditOp) :
    ∀ s : UndoHistory, DetachExcl s → DetachExcl (applyOps ops s) := by
  induction ops with
  | nil => intro s h; exact h
  | cons op rest ih => intro s h; exact ih (applyOp s op) (detachExcl_step s op h)

theorem nonSave_step (s : UndoHistory) (op : EditOp) (hop : NonSaveOp op)
    (hsp : s.savePoint = -1) :
    (applyOp s op).savePoint = -1 ∧ (applyOp s op).detach = s.detach := by
  have hc : ¬(s.currentAction < s.actions.len ∧ (s.currentAction : Int) < s.savePoint) := by
    rw [hsp]
    rintro ⟨-, habs⟩
    omega
  cases op with
  | append at_ position data mayCoalesce =>
      constructor
      · rw [applyOp, appendAction_savePoint, truncateRedo_savePoint, if_neg hc, hsp]
      · rw [applyOp, appendAction_detach, truncateRedo_detach, if_neg hc]
  | beginUndo mayCoalesce =>
      rcases beginUndo_fields s mayCoalesce with ⟨ha, hb⟩ | ⟨ha, hb⟩
      · rw [applyOp, ha, hb, truncateRedo_savePoint, truncateRedo_detach,
          if_neg hc, if_neg hc, hsp]
        exact ⟨rfl, rfl⟩
      · rw [applyOp, ha, hb, hsp]
        exact ⟨rfl, rfl⟩
  | endUndo => exact ⟨hsp, rfl⟩
  | dropUndoSequence => exact ⟨hsp, rfl⟩
  | tentativeStart => exact ⟨hsp, rfl⟩
  | tentativeCommit => exact ⟨hsp, rfl⟩
  | undoStep => exact ⟨hsp, rfl⟩
  | redoStep => exact ⟨hsp, rfl⟩
  | setSavePoint => exact absurd hop (by simp [NonSaveOp])
  | setSavePointAt action => exact absurd hop (by simp [NonSaveOp])
  | deleteHistory => exact absurd hop (by simp [NonSaveOp])

theorem nonSave_ops (ops : List EditOp) (hops : ∀ op ∈ ops, NonSaveOp op) :
    ∀ s : UndoHistory, s.savePoint = -1 →
      (applyOps ops s).savePoint = -1 ∧ (applyOps ops s).detach = s.detach := by
  induction ops with
  | nil => intro s hsp; exact ⟨hsp, rfl⟩
  | cons op rest ih =>
      intro s hsp
      have hstep := nonSave_step s op (hops op (by simp)) hsp
      have hrest := ih (fun o ho => hops o (by simp [ho])) (applyOp s op) hstep.1
      exact ⟨hrest.1, hrest.2.trans hstep.2⟩

theorem setValueAt_data (sv : ScaledVector) (i v : Nat) :
    (sv.SetValueAt i v).data = sv.data.set i v := by
  unfold ScaledVector.SetValueAt
  split <;> rfl

/-- Run of same-type append calls, each passing `mayCoalesce = true`; a call
is a position paired with its payload. -/
def appendRun (t : ActionType) : List (Nat × List Char) → UndoHistory → UndoHistory
  | [], s => s
  | (p, d) :: rest, s => appendRun t rest (s.AppendAction t p d d.length true).1

/-- Contiguity of a run of calls with the accumulated extent of the single
coalesced slot, which starts at `p` with length `acc` (the claim's side
condition: an Insert extends at the end of the previous extent, a Remove
stays adjacent). -/
def ContigRun (t : ActionType) (p acc : Nat) : List (Nat × List Char) → Prop
  | [] => True
  | (pos, d) :: rest =>
      coalesceMatch t pos d.length p acc = true ∧
      ContigRun t (coalescedPos t pos p) (acc + d.length) rest

/-- State shape during a coalescing run: exactly one slot, of type `t` with
the may-coalesce flag set, extent `(p, acc)`, the frontier after it, and no
boundary at the frontier. -/
def OneSlot (s : UndoHistory) (t : ActionType) (p acc : Nat) : Prop :=
  s.actions.types = [{ atype := t, mayCoalesce := true }] ∧
  s.actions.positions.data = [p] ∧
  s.actions.lengths.data = [acc] ∧
  s.currentAction = 1 ∧ s.savePoint = 0 ∧ s.tentativePoint = -1

theorem append_first (t : ActionType) (p : Nat) (d : List Char) :
    OneSlot (UndoHistory.initial.AppendAction t p d d.length true).1 t p d.length := by
  unfold UndoHistory.AppendAction UndoHistory.truncateRedo
  simp only [UndoHistory.initial, UndoActions.empty, UndoActions.len, ScaledVector.empty,
    List.length_nil, Nat.lt_irrefl, if_false, Nat.zero_sub, decide_eq_true_eq]
  norm_num [OneSlot, UndoActions.Create, ScaledVector.Truncate, ScaledVector.PushBack,
    setValueAt_data]

theorem append_coalesces (s : UndoHistory) (t : ActionType) (p acc pos : Nat)
    (d : List Char) (h : OneSlot s t p acc)
    (hm : coalesceMatch t pos d.length p acc = true) :
    OneSlot (s.AppendAction t pos d d.length true).1 t (coalescedPos t pos p)
      (acc + d.length) := by
  obtain ⟨hty, hpos, hlen, hc, hsp, htp⟩ := h
  have hnotr : ¬(s.currentAction < s.actions.len) := by
    simp [UndoActions.len, hty, hc]
  have htr : s.truncateRedo = s := by
    unfold UndoHistory.truncateRedo
    rw [if_neg hnotr]
  unfold UndoHistory.AppendAction
  rw [htr]
  have hprev : s.actions.types.getD (s.currentAction - 1) blankType =
      { atype := t, mayCoalesce := true } := by
    rw [hty, hc]
    rfl
  have hppos : s.actions.posAt (s.currentAction - 1) = p := by
    rw [UndoActions.posAt, hpos, hc]
    rfl
  have hplen : s.actions.lenAt (s.currentAction - 1) = acc := by
    rw [UndoActions.lenAt, hlen, hc]
    rfl
  dsimp only
  rw [hprev, hppos, hplen, hc, hsp, htp]
  simp only [decide_eq_true_eq, hm]
  norm_num [OneSlot, hty, hc, hsp, htp, setValueAt_data, hpos, hlen]

theorem appendRun_oneSlot (t : ActionType) (calls : List (Nat × List Char)) :
    ∀ s : UndoHistory, ∀ p acc : Nat, OneSlot s t p acc → ContigRun t p acc calls →
      ∃ q : Nat, OneSlot (appendRun t calls s) t q
        (acc + (calls.map (fun c => c.2.length)).sum) := by
  induction calls with
  | nil =>
      intro s p acc h _
      exact ⟨p, by simpa using h⟩
  | cons call rest ih =>
      intro s p acc h hcontig
      obtain ⟨pos, d⟩ := call
      obtain ⟨hm, hrest⟩ := hcontig
      have hstep := append_coalesces s t p acc pos d h hm
      have := ih _ _ _ hstep hrest
      simpa [appendRun, Nat.add_assoc] using this

theorem redoN_succ (k : Nat) :
    ∀ (s : UndoHistory) (d : Doc),
      redoN (k + 1) s d =
        ((redoN k s d).1.CompletedRedoStep,
          applyRedoAction (redoN k s d).2 (redoN k s d).1.GetRedoStep) := by
  induction k with
  | zero => intro s d; rfl
  | succ k ih =>
      intro s d
      show redoN (k + 1) s.CompletedRedoStep (applyRedoAction d s.GetRedoStep) = _
      rw [ih]
      rfl

theorem redoDocs_succ (k : Nat) :
    ∀ (s : UndoHistory) (d : Doc),
      redoDocs (k + 1) s d = redoDocs k s d ++ [(redoN (k + 1) s d).2] := by
  induction k with
  | zero => intro s d; rfl
  | succ k ih =>
      intro s d
      show d :: redoDocs (k + 1) s.CompletedRedoStep (applyRedoAction d s.GetRedoStep) = _
      rw [ih]
      rfl

theorem undoN_actions (k : Nat) :
    ∀ (s : UndoHistory) (d : Doc), (undoN k s d).1.actions = s.actions := by
  induction k with
  | zero => intro s d; rfl
  | succ k ih =>
      intro s d
      show (undoN k s.CompletedUndoStep (applyUndoAction d s.GetUndoStep)).1.actions = _
      rw [ih]
      rfl

theorem undoN_currentAction (k : Nat) :
    ∀ (s : UndoHistory) (d : Doc),
      (undoN k s d).1.currentAction = s.currentAction - k := by
  induction k with
  | zero => intro s d; rfl
  | succ k ih =>
      intro s d
      show (undoN k s.CompletedUndoStep (applyUndoAction d s.GetUndoStep)).1.currentAction = _
      rw [ih]
      show s.currentAction - 1 - k = s.currentAction - (k + 1)
      omega

theorem roundTrip (k : Nat) :
    ∀ (s : UndoHistory) (d : Doc), UndoValid s d k →
      redoN k (undoN k s d).1 (undoN k s d).2 = (s, d) ∧
      redoDocs k (undoN k s d).1 (undoN k s d).2 = (undoDocs k s d).reverse := by
  induction k with
  | zero => intro s d _; exact ⟨rfl, rfl⟩
  | succ k ih =>
      intro s d hv
      obtain ⟨h1, h2, h3, h4, hrest⟩ := hv
      have hu : undoN (k + 1) s d =
          undoN k s.CompletedUndoStep (applyUndoAction d s.GetUndoStep) := rfl
      have ihk := ih s.CompletedUndoStep (applyUndoAction d s.GetUndoStep) hrest
      have hfinal : redoN (k + 1) (undoN (k + 1) s d).1 (undoN (k + 1) s d).2 = (s, d) := by
        rw [hu, redoN_succ, ihk.1]
        show (s.CompletedUndoStep.CompletedRedoStep,
          applyRedoAction (applyUndoAction d s.GetUndoStep)
            s.CompletedUndoStep.GetRedoStep) = (s, d)
        rw [undo_then_redo_state s h1 h3, undo_then_getRedo, undo_redo_doc d _ h4]
      refine ⟨hfinal, ?_⟩
      rw [hu, redoDocs_succ, ihk.2, ← hu, hfinal]
      show (undoDocs k s.CompletedUndoStep (applyUndoAction d s.GetUndoStep)).reverse
          ++ [d] = (undoDocs (k + 1) s d).reverse
      show _ = (d :: undoDocs k s.CompletedUndoStep (applyUndoAction d s.GetUndoStep)).reverse
      rw [List.reverse_cons]

theorem backCount_pos (types : List UndoActionType) (j : Nat) :
    1 ≤ backCount types j := by
  cases j with
  | zero => exact Nat.le_refl 1
  | succ j =>
      unfold backCount
      split <;> omega

theorem backCount_le (types : List UndoActionType) : ∀ j : Nat,
    backCount types j ≤ j + 1 := by
  intro j
  induction j with
  | zero => exact Nat.le_refl 1
  | succ j ih =>
      unfold backCount
      split <;> omega

theorem backCount_flags (types : List UndoActionType) : ∀ j i : Nat,
    j + 1 - backCount types j < i → i ≤ j → flagAt types i = true := by
  intro j
  induction j with
  | zero =>
      intro i h1 h2
      have hb : backCount types 0 = 1 := rfl
      rw [hb] at h1
      exact absurd h2 (by omega)
  | succ j ih =>
      intro i h1 h2
      unfold backCount at h1
      split at h1
      · rename_i hf
        rcases Nat.lt_or_ge i (j + 1) with hi | hi
        · exact ih i (by omega) (by omega)
        · have he : i = j + 1 := by omega
          subst he
          exact hf
      · exact absurd h2 (by omega)

theorem backCount_stop (types : List UndoActionType) : ∀ j : Nat,
    j + 1 - backCount types j = 0 ∨
      flagAt types (j + 1 - backCount types j) = false := by
  intro j
  induction j with
  | zero => exact Or.inl rfl
  | succ j ih =>
      cases hf : flagAt types (j + 1) with
      | true =>
          have hb : backCount types (j + 1) = 1 + backCount types j := by
            simp [backCount, hf]
          rw [hb]
          have he : j + 1 + 1 - (1 + backCount types j) =
              j + 1 - backCount types j := by omega
          rw [he]
          exact ih
      | false =>
          have hb : backCount types (j + 1) = 1 := by
            simp [backCount, hf]
          rw [hb]
          have he : j + 1 + 1 - 1 = j + 1 := by omega
          rw [he]
          exact Or.inr hf

theorem flag_drop : ∀ (n : Nat) (types : List UndoActionType) (i : Nat),
    flagAt (types.drop n) i = flagAt types (n + i) := by
  intro n
  induction n with
  | zero =>
      intro types i
      rw [Nat.zero_add, List.drop_zero]
  | succ n ih =>
      intro types i
      cases types with
      | nil => rfl
      | cons a rest =>
          show flagAt (rest.drop n) i = flagAt (a :: rest) (n + 1 + i)
          rw [ih rest i]
          have he : n + 1 + i = (n + i) + 1 := by omega
          rw [he]
          rfl

theorem takeWhile_length_flags :
    ∀ (types : List UndoActionType) (m : Nat),
      (∀ i, i < m → flagAt types i = true) →
      flagAt types m = false →
      (types.takeWhile (fun a => a.mayCoalesce)).length = m := by
  intro types
  induction types with
  | nil =>
      intro m htrue hstop
      cases m with
      | zero => rfl
      | succ m =>
          have h0 := htrue 0 (by omega)
          simp [flagAt, blankType] at h0
  | cons a rest ih =>
      intro m htrue hstop
      cases m with
      | zero =>
          have ha : a.mayCoalesce = false := hstop
          simp [List.takeWhile_cons, ha]
      | succ m =>
          have ha : a.mayCoalesce = true := htrue 0 (by omega)
          have hr := ih m (fun i hi => htrue (i + 1) (by omega)) hstop
          simp [List.takeWhile_cons, ha, hr]

theorem startRedo_after_undo (s : UndoHistory) (d : Doc)
    (hwf : s.currentAction ≤ s.actions.len)
    (hpos : 0 < s.currentAction)
    (hboundary : flagAt s.actions.types s.currentAction = false) :
    (undoN s.StartUndo s d).1.StartRedo = s.StartUndo := by
  obtain ⟨j, hj⟩ : ∃ j, s.currentAction = j + 1 := ⟨s.currentAction - 1, by omega⟩
  have hk : s.StartUndo = backCount s.actions.types j := by
    unfold UndoHistory.StartUndo
    rw [hj]
  have hk1 : 1 ≤ backCount s.actions.types j := backCount_pos _ _
  have hk2 : backCount s.actions.types j ≤ j + 1 := backCount_le _ _
  have hca : (undoN s.StartUndo s d).1.currentAction =
      j + 1 - backCount s.actions.types j := by
    rw [undoN_currentAction, hj, hk]
  have hacts : (undoN s.StartUndo s d).1.actions = s.actions := undoN_actions _ _ _
  unfold UndoHistory.StartRedo
  rw [hca, hacts]
  rw [if_pos (show j + 1 - backCount s.actions.types j < s.actions.len by
    rw [hj] at hwf
    omega)]
  rw [hk]
  have htw : ((s.actions.types.drop (j + 1 - backCount s.actions.types j +
      1)).takeWhile (fun a => a.mayCoalesce)).length =
      backCount s.actions.types j - 1 := by
    apply takeWhile_length_flags
    · intro i hi
      rw [flag_drop]
      exact backCount_flags s.actions.types j _ (by omega) (by omega)
    · rw [flag_drop]
      have he : j + 1 - backCount s.actions.types j + 1 +
          (backCount s.actions.types j - 1) = j + 1 := by omega
      rw [he, ← hj]
      exact hboundary
  rw [htw]
  omega

/-! Concrete states shared by the witnesses and counterexamples below. -/

/-- One coalescible insertion of "ab" at position 0 from the fresh state. -/
def demoAB : UndoHistory :=
  (UndoHistory.initial.AppendAction ActionType.insert 0 ['a', 'b'] 2 true).1

/-- Two separate insertions, a save point at the end, then both undone: the
save point (2) now lies beyond the frontier (0). -/
def demoPreDetach : UndoHistory :=
  applyOps
    [EditOp.append ActionType.insert 0 ['a'] false,
     EditOp.append ActionType.insert 1 ['b'] false,
     EditOp.setSavePoint,
     EditOp.undoStep,
     EditOp.undoStep]
    UndoHistory.initial

/-- Appending from `demoPreDetach` truncates the redo region and discards the
save point, recording it in `detach`. -/
def demoDetach : UndoHistory :=
  (demoPreDetach.AppendAction ActionType.insert 0 ['x'] 1 false).1

/-- Operations opening a one-insert group and then undoing one protocol
step, leaving the frontier in the middle of the group's coalesce chain. -/
def opsGroup : List EditOp :=
  [EditOp.beginUndo false,
   EditOp.append ActionType.insert 0 ['a'] true,
   EditOp.endUndo,
   EditOp.undoStep]

/-- State reached by `opsGroup`: two slots (a group marker and a chained
insert), frontier 1. -/
def demoGroup : UndoHistory := applyOps opsGroup UndoHistory.initial

/-- Protocol operations reaching `demoDetach` from the fresh state. -/
def opsDetach : List EditOp :=
  [EditOp.append ActionType.insert 0 ['a'] false,
   EditOp.append ActionType.insert 1 ['b'] false,
   EditOp.setSavePoint,
   EditOp.undoStep,
   EditOp.undoStep,
   EditOp.append ActionType.insert 0 ['x'] false]

/-! Claim theorems. -/

/-- C1: a run of `AppendAction` calls, every one with `mayCoalesce = true`,
all of one type, each contiguous with the accumulated extent of the coalesced
slot (Insert extending at `prevPos + prevLen == position`, Remove staying
adjacent), with no intervening save point, tentative point or group boundary,
leaves the log with exactly one slot whose length is the sum of the lengths
appended. -/
theorem append_coalescing_law (t : ActionType) (p : Nat) (d : List Char)
    (rest : List (Nat × List Char))
    (hcontig : ContigRun t p d.length rest) :
    (appendRun t rest
        (UndoHistory.initial.AppendAction t p d d.length true).1).actions.len = 1 ∧
    (appendRun t rest
        (UndoHistory.initial.AppendAction t p d d.length true).1).actions.lenAt 0 =
      d.length + (rest.map (fun c => c.2.length)).sum := by
  obtain ⟨q, hone⟩ :=
    appendRun_oneSlot t rest _ p d.length (append_first t p d) hcontig
  obtain ⟨hty, hpos, hlen, -⟩ := hone
  constructor
  · rw [UndoActions.len, hty]
    rfl
  · rw [UndoActions.lenAt, hlen]
    rfl

/-- Witness for C1: insert "ab" at 0 then "c" at 2; one slot of length 3. -/
theorem append_coalescing_law_witness :
    ContigRun ActionType.insert 0 2 [(2, ['c'])] ∧
    ((appendRun ActionType.insert [(2, ['c'])]
        (UndoHistory.initial.AppendAction ActionType.insert 0 ['a', 'b'] 2
          true).1).actions.len = 1 ∧
      (appendRun ActionType.insert [(2, ['c'])]
          (UndoHistory.initial.AppendAction ActionType.insert 0 ['a', 'b'] 2
            true).1).actions.lenAt 0 = 3) :=
  ⟨⟨by decide, trivial⟩,
   append_coalescing_law ActionType.insert 0 ['a', 'b'] [(2, ['c'])]
    ⟨by decide, trivial⟩⟩

/-- C3 (amended): when the save point lies inside the region an
`AppendAction` discards, the save point becomes unset and `detach` records
the old save point; in every state reached from there by operations other
than a save-point call, `IsSavePoint()` and `BeforeSavePoint()` are false and
`detach` keeps the recorded value, while `AfterDetachPoint()` is true exactly
when the frontier has advanced strictly past the recorded detach value (the
instance `ops = []` giving the state immediately after the append). -/
theorem savePoint_truncation_detach (s : UndoHistory) (at_ : ActionType)
    (position : Nat) (data : List Char) (lengthData : Nat) (mayCoalesce : Bool)
    (h1 : s.currentAction < s.actions.len)
    (h2 : (s.currentAction : Int) < s.savePoint) :
    ∀ ops : List EditOp, (∀ op ∈ ops, NonSaveOp op) →
      (applyOps ops
          (s.AppendAction at_ position data lengthData mayCoalesce).1).savePoint = -1 ∧
      (applyOps ops (s.AppendAction at_ position data lengthData mayCoalesce).1).detach =
        some s.savePoint ∧
      (applyOps ops
          (s.AppendAction at_ position data lengthData mayCoalesce).1).IsSavePoint = false ∧
      (applyOps ops
          (s.AppendAction at_ position data lengthData mayCoalesce).1).BeforeSavePoint
        = false ∧
      ((applyOps ops
            (s.AppendAction at_ position data lengthData mayCoalesce).1).AfterDetachPoint
          = true ↔
        s.savePoint <
          ((applyOps ops
              (s.AppendAction at_ position data lengthData
                mayCoalesce).1).currentAction : Int)) := by
  intro ops hops
  have hA_sp : (s.AppendAction at_ position data lengthData mayCoalesce).1.savePoint = -1 := by
    rw [appendAction_savePoint, truncateRedo_savePoint, if_pos ⟨h1, h2⟩]
  have hA_det : (s.AppendAction at_ position data lengthData mayCoalesce).1.detach =
      some s.savePoint := by
    rw [appendAction_detach, truncateRedo_detach, if_pos ⟨h1, h2⟩]
  obtain ⟨hsp, hdet⟩ := nonSave_ops ops hops _ hA_sp
  rw [hA_det] at hdet
  refine ⟨hsp, hdet, ?_, ?_, ?_⟩
  · simp only [UndoHistory.IsSavePoint, hsp, decide_eq_false_iff_not]
    omega
  · simp only [UndoHistory.BeforeSavePoint, hsp, decide_eq_false_iff_not, not_and, not_lt]
    intro habs
    omega
  · simp [UndoHistory.AfterDetachPoint, hdet]

/-- Counterexample to C3 as stated: immediately after the truncating append
from `demoPreDetach`, the save point (2) was discarded and recorded in
`detach`, yet `AfterDetachPoint()` is false (the frontier, 1, is not past the
recorded value 2), against the claim that it returns true for the surviving
range. -/
theorem savePoint_detach_counterexample :
    demoDetach.savePoint = -1 ∧ demoDetach.detach = some 2 ∧
    demoDetach.AfterDetachPoint = false := by
  decide

/-- Witness for C3 at the concrete detach scenario, with the empty trailing
operation list. -/
theorem savePoint_truncation_detach_witness :
    demoPreDetach.currentAction < demoPreDetach.actions.len ∧
    (demoPreDetach.currentAction : Int) < demoPreDetach.savePoint ∧
    (demoDetach.savePoint = -1 ∧
      demoDetach.detach = some demoPreDetach.savePoint ∧
      demoDetach.IsSavePoint = false ∧
      demoDetach.BeforeSavePoint = false ∧
      (demoDetach.AfterDetachPoint = true ↔
        demoPreDetach.savePoint < (demoDetach.currentAction : Int))) :=
  ⟨by decide, by decide,
   savePoint_truncation_detach demoPreDetach ActionType.insert 0 ['x'] 1 false
    (by decide) (by decide) [] (by simp)⟩

/-- C5 (amended): from every state with something to undo whose frontier
lies at an undo-step boundary (the slot at the frontier, if any, does not
chain to its predecessor), and a document the recorded actions validly
describe, the complete round trip — undoing `StartUndo()` many steps via
`GetUndoStep`/`CompletedUndoStep`, then redoing the `StartRedo()` many steps
(shown equal to the undone count) via `GetRedoStep`/`CompletedRedoStep` —
reproduces in reverse the document states the undo phase passed through and
restores the original state and frontier exactly. -/
theorem undo_redo_roundtrip (s : UndoHistory) (d : Doc)
    (hwf : s.currentAction ≤ s.actions.len)
    (hpos : 0 < s.currentAction)
    (hboundary : flagAt s.actions.types s.currentAction = false)
    (hvalid : UndoValid s d s.StartUndo) :
    (undoN s.StartUndo s d).1.StartRedo = s.StartUndo ∧
    redoN s.StartUndo (undoN s.StartUndo s d).1 (undoN s.StartUndo s d).2 = (s, d) ∧
    redoDocs s.StartUndo (undoN s.StartUndo s d).1 (undoN s.StartUndo s d).2 =
      (undoDocs s.StartUndo s d).reverse :=
  ⟨startRedo_after_undo s d hwf hpos hboundary,
   (roundTrip s.StartUndo s d hvalid).1,
   (roundTrip s.StartUndo s d hvalid).2⟩

/-- Counterexample to C5 as stated: `demoGroup` is reachable by protocol
operations, yet the complete round trip from it (undo `StartUndo() = 1`
step, then redo `StartRedo() = 2` steps) ends at frontier 2 instead of the
original 1 and at document "a" instead of the original empty document — its
frontier sits inside a group's coalesce chain, which the amended claim
excludes. -/
theorem undo_redo_roundtrip_counterexample :
    Reachable demoGroup ∧
    demoGroup.currentAction = 1 ∧
    demoGroup.StartUndo = 1 ∧
    (undoN demoGroup.StartUndo demoGroup []).1.StartRedo = 2 ∧
    (redoN ((undoN demoGroup.StartUndo demoGroup []).1.StartRedo)
        (undoN demoGroup.StartUndo demoGroup []).1
        (undoN demoGroup.StartUndo demoGroup []).2).1.currentAction = 2 ∧
    (redoN ((undoN demoGroup.StartUndo demoGroup []).1.StartRedo)
        (undoN demoGroup.StartUndo demoGroup []).1
        (undoN demoGroup.StartUndo demoGroup []).2).2 = ['a'] :=
  ⟨⟨opsGroup, rfl⟩, by decide, by decide, by decide, by decide, by decide⟩

/-- Witness for C5 at the one-slot state `demoAB` against the document
"ab". -/
theorem undo_redo_roundtrip_witness :
    demoAB.currentAction ≤ demoAB.actions.len ∧
    0 < demoAB.currentAction ∧
    flagAt demoAB.actions.types demoAB.currentAction = false ∧
    UndoValid demoAB ['a', 'b'] demoAB.StartUndo ∧
    ((undoN demoAB.StartUndo demoAB ['a', 'b']).1.StartRedo = demoAB.StartUndo ∧
      redoN demoAB.StartUndo (undoN demoAB.StartUndo demoAB ['a', 'b']).1
        (undoN demoAB.StartUndo demoAB ['a', 'b']).2 = (demoAB, ['a', 'b']) ∧
      redoDocs demoAB.StartUndo (undoN demoAB.StartUndo demoAB ['a', 'b']).1
        (undoN demoAB.StartUndo demoAB ['a', 'b']).2 =
        (undoDocs demoAB.StartUndo demoAB ['a', 'b']).reverse) :=
  have hvalid : UndoValid demoAB ['a', 'b'] demoAB.StartUndo :=
    ⟨by decide, by decide, by decide, ⟨by decide, by decide⟩, trivial⟩
  ⟨by decide, by decide, by decide, hvalid,
   undo_redo_roundtrip demoAB ['a', 'b'] (by decide) (by decide) (by decide) hvalid⟩

/-- C6 (amended): over every valid ScaledVector operation sequence from the
initial vector, every stored value fits `maxValue`, the width is the minimum
power-of-two byte width (from 1, 2, 4, 8) representing `maxValue`, storing
`v` leaves the width at the maximum of its previous value and the minimum
power-of-two byte width holding `v` (so at least the latter, but the vector
never narrows), no operation but `Clear` decreases the width, and `Clear`
resets it to 1. -/
theorem scaledVector_width_invariant (ops : List SVOp)
    (hops : ∀ op ∈ ops, ValidSVOp op) :
    (∀ v ∈ (applySVOps ops ScaledVector.empty).data,
        v ≤ (applySVOps ops ScaledVector.empty).maxValue) ∧
    widthFor (applySVOps ops ScaledVector.empty).maxValue =
      (applySVOps ops ScaledVector.empty).size ∧
    ((applySVOps ops ScaledVector.empty).size = 1 ∨
      (applySVOps ops ScaledVector.empty).size = 2 ∨
      (applySVOps ops ScaledVector.empty).size = 4 ∨
      (applySVOps ops ScaledVector.empty).size = 8) ∧
    (∀ i v, v < 2 ^ 64 →
      ((applySVOps ops ScaledVector.empty).SetValueAt i v).size =
        max (applySVOps ops ScaledVector.empty).size (widthFor v)) ∧
    (∀ op, ValidSVOp op → op ≠ SVOp.clear →
      (applySVOps ops ScaledVector.empty).size ≤
        (applySVOp (applySVOps ops ScaledVector.empty) op).size) ∧
    ((applySVOps ops ScaledVector.empty).Clear).size = 1 := by
  have h0 : SVInv ScaledVector.empty := by
    refine ⟨Or.inl rfl, by decide, ?_⟩
    intro v hv
    simp [ScaledVector.empty] at hv
  have hInv := svInv_ops ops ScaledVector.empty h0 hops
  refine ⟨hInv.2.2, ?_, hInv.1, ?_, ?_, rfl⟩
  · rw [hInv.2.1]
    exact widthFor_pow_sub_one _ hInv.1
  · intro i v hv
    exact setValueAt_size _ i v hInv hv
  · intro op hop hne
    exact svSize_mono _ op hInv hop hne

/-- Two slots; storing 300 widens to 2 bytes, then storing 5 keeps them. -/
def demoSV : ScaledVector :=
  ((ScaledVector.empty.PushBack.PushBack).SetValueAt 0 300).SetValueAt 1 5

/-- Operations producing `demoSV` from the initial vector. -/
def demoSVOps : List SVOp :=
  [SVOp.pushBack, SVOp.pushBack, SVOp.setValueAt 0 300, SVOp.setValueAt 1 5]

/-- Counterexample to C6 as stated: after storing 300 (2-byte width) and then
5, the width stays 2, not the minimum power-of-two byte width holding the
value 5 most recently stored, which is 1 — the vector never narrows. -/
theorem scaledVector_width_counterexample :
    demoSV.size = 2 ∧ widthFor 5 = 1 ∧ ¬demoSV.size = widthFor 5 := by
  decide

/-- Witness for C6 on the concrete operation sequence producing `demoSV`. -/
theorem scaledVector_width_invariant_witness :
    (∀ op ∈ demoSVOps, ValidSVOp op) ∧
    ((∀ v ∈ (applySVOps demoSVOps ScaledVector.empty).data,
        v ≤ (applySVOps demoSVOps ScaledVector.empty).maxValue) ∧
      widthFor (applySVOps demoSVOps ScaledVector.empty).maxValue =
        (applySVOps demoSVOps ScaledVector.empty).size ∧
      ((applySVOps demoSVOps ScaledVector.empty).size = 1 ∨
        (applySVOps demoSVOps ScaledVector.empty).size = 2 ∨
        (applySVOps demoSVOps ScaledVector.empty).size = 4 ∨
        (applySVOps demoSVOps ScaledVector.empty).size = 8) ∧
      (∀ i v, v < 2 ^ 64 →
        ((applySVOps demoSVOps ScaledVector.empty).SetValueAt i v).size =
          max (applySVOps demoSVOps ScaledVector.empty).size (widthFor v)) ∧
      (∀ op, ValidSVOp op → op ≠ SVOp.clear →
        (applySVOps demoSVOps ScaledVector.empty).size ≤
          (applySVOp (applySVOps demoSVOps ScaledVector.empty) op).size) ∧
      ((applySVOps demoSVOps ScaledVector.empty).Clear).size = 1) :=
  have hops : ∀ op ∈ demoSVOps, ValidSVOp op := by
    intro op hop
    simp only [demoSVOps, List.mem_cons, List.not_mem_nil, or_false] at hop
    rcases hop with rfl | rfl | rfl | rfl <;> simp [ValidSVOp]
  ⟨hops, scaledVector_width_invariant demoSVOps hops⟩

/-- C7: in every reachable state, `detach` holds a value only when no valid
save point remains: whenever `detach` is set, `savePoint` is the unset
sentinel (negative), and every core-protocol operation preserves this. -/
theorem detach_savePoint_exclusive (s : UndoHistory) (h : Reachable s) :
    s.detach.isSome = true → s.savePoint < 0 := by
  obtain ⟨ops, rfl⟩ := h
  refine detachExcl_ops ops UndoHistory.initial ?_
  intro hd
  simp [UndoHistory.initial] at hd

/-- Witness for C7 at the reachable state `demoDetach`, whose `detach` is
set. -/
theorem detach_savePoint_exclusive_witness :
    Reachable demoDetach ∧
    (demoDetach.detach.isSome = true → demoDetach.savePoint < 0) :=
  ⟨⟨opsDetach, rfl⟩, detach_savePoint_exclusive demoDetach ⟨opsDetach, rfl⟩⟩

/-- C10: a freshly constructed UndoHistory starts at a save point with
nothing to undo, no composition open and no open group: `currentAction = 0`,
`savePoint = 0` (so `IsSavePoint()` is true and `CanUndo()` is false),
`tentativePoint = -1` (so `TentativeActive()` is false),
`undoSequenceDepth = 0` and `detach` unset. -/
theorem initial_state_savepoint :
    UndoHistory.initial.currentAction = 0 ∧
    UndoHistory.initial.savePoint = 0 ∧
    UndoHistory.initial.IsSavePoint = true ∧
    UndoHistory.initial.CanUndo = false ∧
    UndoHistory.initial.tentativePoint = -1 ∧
    UndoHistory.initial.TentativeActive = false ∧
    UndoHistory.initial.undoSequenceDepth = 0 ∧
    UndoHistory.initial.detach = none := by
  decide

/-- C8: `TentativeCommit()` clears `tentativePoint` and changes nothing
else — the action log (types, positions, lengths), the scrap stack, the
frontier, the save point, the detach point and the group depth are all
unchanged — and afterwards `TentativeActive()` is false. -/
theorem tentativeCommit_frame (s : UndoHistory) :
    s.TentativeCommit.actions = s.actions ∧
    s.TentativeCommit.scraps = s.scraps ∧
    s.TentativeCommit.currentAction = s.currentAction ∧
    s.TentativeCommit.savePoint = s.savePoint ∧
    s.TentativeCommit.detach = s.detach ∧
    s.TentativeCommit.undoSequenceDepth = s.undoSequenceDepth ∧
    s.TentativeCommit.TentativeActive = false := by
  simp [UndoHistory.TentativeCommit, UndoHistory.TentativeActive]

/-- C4: for every UndoHistory state (with the frontier inside the log, as in
every state the protocol produces), `CanUndo()` holds iff
`currentAction > 0`, `CanRedo()` is false exactly when `currentAction`
equals the log length, `CompletedUndoStep` decrements `currentAction` by
exactly one (under its `CanUndo` protocol guard, the frontier being a `Nat`
here whereas the C++ `int` below zero is outside the protocol), and
`CompletedRedoStep` increments it by exactly one. -/
theorem undo_redo_stepping (s : UndoHistory)
    (hwf : s.currentAction ≤ s.actions.len) :
    (s.CanUndo = true ↔ 0 < s.currentAction) ∧
    (s.CanRedo = false ↔ s.currentAction = s.actions.len) ∧
    (s.CanUndo = true → s.currentAction = s.CompletedUndoStep.currentAction + 1) ∧
    s.CompletedRedoStep.currentAction = s.currentAction + 1 := by
  refine ⟨?_, ?_, ?_, ?_⟩
  · simp [UndoHistory.CanUndo]
  · simp [UndoHistory.CanRedo]
    omega
  · simp [UndoHistory.CanUndo, UndoHistory.CompletedUndoStep]
    omega
  · simp [UndoHistory.CompletedRedoStep]

/-- C2: appending while the frontier is strictly inside the log discards the
redo region `[currentAction, N)`: afterwards `CanRedo()` is false and the log
ends exactly at the frontier, so every slot index any public accessor
(`Type`, `Position`, `Length`, `Text`, `GetRedoStep`) can reach lies in the
surviving range — the discarded slots are no longer part of the state. -/
theorem append_discards_redo (s : UndoHistory) (at_ : ActionType) (position : Nat)
    (data : List Char) (lengthData : Nat) (mayCoalesce : Bool)
    (h : s.currentAction < s.actions.len) :
    (s.AppendAction at_ position data lengthData mayCoalesce).1.CanRedo = false ∧
    (s.AppendAction at_ position data lengthData mayCoalesce).1.actions.len =
      (s.AppendAction at_ position data lengthData mayCoalesce).1.currentAction ∧
    (s.AppendAction at_ position data lengthData mayCoalesce).1.currentAction ≤
      s.currentAction + 1 := by
  have hs := appendAction_shape s at_ position data lengthData mayCoalesce
  have h1 := truncateRedo_currentAction s
  have h2 := truncateRedo_len s
  have hmain :
      (s.AppendAction at_ position data lengthData mayCoalesce).1.actions.len =
        (s.AppendAction at_ position data lengthData mayCoalesce).1.currentAction ∧
      (s.AppendAction at_ position data lengthData mayCoalesce).1.currentAction ≤
        s.currentAction + 1 := by
    rcases hs with ⟨ha, hb⟩ | ⟨ha, hb⟩ <;> rw [ha, hb, h1, h2] <;> omega
  refine ⟨?_, hmain.1, hmain.2⟩
  simp only [UndoHistory.CanRedo, decide_eq_false_iff_not, not_lt, hmain.1, le_refl]

/-- Witness for C2: undo the single "ab" insertion, then append "z"; the redo
region is discarded. -/
theorem append_discards_redo_witness :
    demoAB.CompletedUndoStep.currentAction < demoAB.CompletedUndoStep.actions.len ∧
    ((demoAB.CompletedUndoStep.AppendAction ActionType.insert 0 ['z'] 1 true).1.CanRedo
        = false ∧
      (demoAB.CompletedUndoStep.AppendAction ActionType.insert 0 ['z'] 1 true).1.actions.len =
        (demoAB.CompletedUndoStep.AppendAction ActionType.insert 0 ['z'] 1
          true).1.currentAction ∧
      (demoAB.CompletedUndoStep.AppendAction ActionType.insert 0 ['z'] 1
          true).1.currentAction ≤
        demoAB.CompletedUndoStep.currentAction + 1) :=
  ⟨by decide,
   append_discards_redo demoAB.CompletedUndoStep ActionType.insert 0 ['z'] 1 true
    (by decide)⟩

/-- Witness for C4 at the one-slot state reached by inserting "ab". -/
theorem undo_redo_stepping_witness :
    demoAB.currentAction ≤ demoAB.actions.len ∧
    ((demoAB.CanUndo = true ↔ 0 < demoAB.currentAction) ∧
     (demoAB.CanRedo = false ↔ demoAB.currentAction = demoAB.actions.len) ∧
     (demoAB.CanUndo = true →
       demoAB.currentAction = demoAB.CompletedUndoStep.currentAction + 1) ∧
     demoAB.CompletedRedoStep.currentAction = demoAB.currentAction + 1) :=
  ⟨by decide, undo_redo_stepping demoAB (by decide)⟩

end Scintilla
